import Mathlib

/-!
# Verification of the zenodb row store (`tdb` package)

Shallow embedding of the row store: the write path, in-memory generations,
flush framing, and the merged read path of `rowstore.go` (the `tdb` package).

Bytes are modelled as `Nat` values, byte strings as `List Nat`.  A `sequence`
is an opaque byte buffer produced by the external sample codec; the codec
operations (`update`, `merge`, `truncate`) are abstract parameters, matching
the source which treats them as a black box.
-/

namespace Tdb

/-- A `sequence`: opaque encoded time series for one field of one key. -/
abbrev Seq := List Nat

/-- A row key (`bytemap.ByteMap`): an opaque byte string. -/
abbrev Key := List Nat

/-- A row as yielded to `onRow`: key plus per-field columns. -/
abbrev Row := Key × List Seq

/-! ## Big-endian byte encoding

`binary.Write`/`binary.Read` with the package's `binaryEncoding`.
Modelled from the spec: the encoding is big-endian (§6.1 of the format
description); the defining file of `binaryEncoding` is outside this extract. -/

/-- Big-endian digits of `v` in base `base`, left-padded to exactly `w`
digits (the value is taken modulo `base ^ w`, matching Go's integer
conversion such as `uint16(len(key))`). -/
def natDigitsBE (base : Nat) : Nat → Nat → List Nat
  | 0, _ => []
  | w + 1, v => v / base ^ w % base :: natDigitsBE base w (v % base ^ w)

/-- Recompose a big-endian digit list in base 256 into a value. -/
def bytesToNatBE : List Nat → Nat
  | [] => 0
  | b :: bs => b * 256 ^ bs.length + bytesToNatBE bs

/-- Model of `io.ReadFull` of exactly `n` bytes: `none` models a short read. -/
def readBytes (n : Nat) (bs : List Nat) : Option (List Nat × List Nat) :=
  if n ≤ bs.length then some (bs.take n, bs.drop n) else none

/-- Model of `binary.Read` of a `w`-byte big-endian unsigned integer. -/
def readUBE (w : Nat) (bs : List Nat) : Option (Nat × List Nat) :=
  match readBytes w bs with
  | none => none
  | some (ds, rest) => some (bytesToNatBE ds, rest)

/-- Read `n` consecutive `uint64` column lengths (the `colLengths` loop). -/
def readNums : Nat → List Nat → Option (List Nat × List Nat)
  | 0, bs => some ([], bs)
  | n + 1, bs =>
    match readUBE 8 bs with
    | none => none
    | some (v, bs1) =>
      match readNums n bs1 with
      | none => none
      | some (vs, bs2) => some (v :: vs, bs2)

/-- Read one column body per length (the `columns` loop of the reader). -/
def readSeqs : List Nat → List Nat → Option (List Seq × List Nat)
  | [], bs => some ([], bs)
  | l :: ls, bs =>
    match readBytes l bs with
    | none => none
    | some (c, bs1) =>
      match readSeqs ls bs1 with
      | none => none
      | some (cs, bs2) => some (c :: cs, bs2)

/-- Parse one framed record
`keylength|key|numcolumns|col1len|...|lastcollen|col1|...|lastcol`
exactly as the loop body of `fileStore.iterate` reads it; `none` models any
short read, which the source reports as an error. -/
def parseRecord (bs : List Nat) : Option (Row × List Nat) :=
  match readUBE 2 bs with
  | none => none
  | some (keyLen, bs1) =>
    match readBytes keyLen bs1 with
    | none => none
    | some (key, bs2) =>
      match readUBE 2 bs2 with
      | none => none
      | some (numCols, bs3) =>
        match readNums numCols bs3 with
        | none => none
        | some (lens, bs4) =>
          match readSeqs lens bs4 with
          | none => none
          | some (cols, bs5) => some ((key, cols), bs5)

/-- Fuel-indexed record-stream parser.  Each parsed record consumes at
least four bytes, so any fuel of at least the stream length is enough
(`parseAllF_fuel`); the fuel only makes the recursion structural. -/
def parseAllF : Nat → List Nat → Option (List Row)
  | _, [] => some []
  | 0, _ :: _ => none
  | fuel + 1, b :: bs =>
    match parseRecord (b :: bs) with
    | none => none
    | some (r, rest) => (parseAllF fuel rest).map (fun rs => r :: rs)

/-- Parse the whole decompressed stream: EOF exactly at a record boundary
is the clean terminator (`err == io.EOF → break`); any mid-record short
read is an error (`none`). -/
def parseAll (bs : List Nat) : Option (List Row) :=
  parseAllF bs.length bs

/-- The flush writer's framing of one record (`processFlushes`' `write`):
`uint16(len(key))`, the key bytes, `uint16(len(columns))`, one
`uint64(len(col))` per column, then the column bytes.  Go's integer
conversions truncate, hence the `% 2^w` in `natDigitsBE`. -/
def writeRecord (k : Key) (cols : List Seq) : List Nat :=
  natDigitsBE 256 2 k.length ++ k ++ natDigitsBE 256 2 cols.length ++
    (cols.map fun c => natDigitsBE 256 8 c.length).flatten ++ cols.flatten

/-- The concatenation of the framed records of a record list — the content
of a durable file holding exactly those records (the file has no header,
footer, checksum or index). -/
def encodeRecords (recs : List Row) : List Nat :=
  (recs.map fun r => writeRecord r.1 r.2).flatten

/-! ## Mem stores

`memStore` is `map[string][]sequence`; modelled as an association list.
Go maps have unique keys, so lemmas assume `Nodup` on the key column where
it matters.  `memStore.remove` is a lookup (`nil`, i.e. `[]`, when absent)
followed by `delete`. -/

/-- The key column of a mem store. -/
def msKeys (ms : List (Key × List Seq)) : List Key := ms.map Prod.fst

/-- Lookup `ms[key]` — Go returns `nil` (here `[]`) for an absent key. -/
def msLookup : List (Key × List Seq) → Key → List Seq
  | [], _ => []
  | (k', v) :: rest, k => if k' = k then v else msLookup rest k

/-- Deletion `delete(ms, key)` — removes the (unique) entry for `key`. -/
def msErase : List (Key × List Seq) → Key → List (Key × List Seq)
  | [], _ => []
  | (k', v) :: rest, k => if k' = k then rest else (k', v) :: msErase rest k

/-- Assignment `currentMemStore[insert.key] = seqs` — Go map assignment. -/
def msInsert : List (Key × List Seq) → Key → List Seq → List (Key × List Seq)
  | [], k, v => [(k, v)]
  | (k', v') :: rest, k, v =>
    if k' = k then (k, v) :: rest else (k', v') :: msInsert rest k v

/-- A mem-generation snapshot. -/
abbrev MemStore := List (Key × List Seq)

/-- Erase a whole list of keys, left to right. -/
def eraseKeys (ms : MemStore) (ks : List Key) : MemStore := ks.foldl msErase ms

/-! ## The pairwise merge of `fileStore.iterate`

`m i a b` stands for `a.merge(b, fs.t.Fields[i], fs.t.Resolution,
truncateBefore)`; the codec and the table data are abstracted into `m`
(see `tableMergeAt`). -/

/-- The index loop
`for i := 0; i < len(columns) || i < len(columns2); i++ { ... }`
of `fileStore.iterate`: indices past `columns2` are left alone, indices
past `columns` append `columns2[i]`, and overlapping indices are merged
with the file/earlier column on the left. -/
def pairwiseMergeAux (m : Nat → Seq → Seq → Seq) : Nat → List Seq → List Seq → List Seq
  | _, cs, [] => cs
  | i, [], c2 :: cs2 => c2 :: pairwiseMergeAux m (i + 1) [] cs2
  | i, c :: cs, c2 :: cs2 => m i c c2 :: pairwiseMergeAux m (i + 1) cs cs2

/-- The loop `for _, ms := range memStores { columns2 := ms.remove(string(key)); ... }`:
remove the key's columns from each snapshot in order and fold them into the
accumulated columns via the pairwise merge. -/
def mergeWithMemStores (m : Nat → Seq → Seq → Seq) (k : Key) :
    List Seq → List MemStore → List Seq × List MemStore
  | cols, [] => (cols, [])
  | cols, ms :: rest =>
    let cols2 := msLookup ms k
    let ms' := msErase ms k
    let cols' := pairwiseMergeAux m 0 cols cols2
    let p := mergeWithMemStores m k cols' rest
    (p.1, ms' :: p.2)

/-- The fold form of the column fusion for one key: fold the key's takes
from the given snapshots, left to right, into the accumulated columns —
the earlier/accumulated columns are always the left merge operand. -/
def mergeFold (m : Nat → Seq → Seq → Seq) (k : Key) (cols : List Seq)
    (mss : List MemStore) : List Seq :=
  mss.foldl (fun acc s => pairwiseMergeAux m 0 acc (msLookup s k)) cols

/-- The file-reading loop of `fileStore.iterate` at record level: for each
record, fuse it with every mem-store snapshot (consuming the key there) and
emit it. -/
def iterateFileRecords (m : Nat → Seq → Seq → Seq) :
    List Row → List MemStore → List Row × List MemStore
  | [], mss => ([], mss)
  | (k, cols) :: recs, mss =>
    let p := mergeWithMemStores m k cols mss
    let q := iterateFileRecords m recs p.2
    ((k, p.1) :: q.1, q.2)

/-- The body of `for key, columns := range ms` inside the trailing loop of
`fileStore.iterate`: each remaining key of the generation is fused with all
later generations (`for j := i + 1; ...`), consuming the key there. -/
def drainStore (m : Nat → Seq → Seq → Seq) :
    MemStore → List MemStore → List Row × List MemStore
  | [], rest => ([], rest)
  | (k, cols) :: entries, rest =>
    let p := mergeWithMemStores m k cols rest
    let q := drainStore m entries p.2
    ((k, p.1) :: q.1, q.2)

theorem mergeWithMemStores_sndLength (m : Nat → Seq → Seq → Seq) (k : Key)
    (cols : List Seq) (mss : List MemStore) :
    (mergeWithMemStores m k cols mss).2.length = mss.length := by
  induction mss generalizing cols with
  | nil => rfl
  | cons ms rest ih => simp [mergeWithMemStores, ih]

theorem drainStore_sndLength (m : Nat → Seq → Seq → Seq)
    (ms : MemStore) (rest : List MemStore) :
    (drainStore m ms rest).2.length = rest.length := by
  induction ms generalizing rest with
  | nil => rfl
  | cons e entries ih =>
    obtain ⟨k, cols⟩ := e
    simp [drainStore, ih, mergeWithMemStores_sndLength]

/-- Fuel-indexed version of the trailing mem-store loop; draining one
generation leaves exactly one fewer generation, so fuel equal to the list
length is always exact (`drainStore_sndLength`). -/
def iterateMemStoresF (m : Nat → Seq → Seq → Seq) : Nat → List MemStore → List Row
  | _, [] => []
  | 0, _ :: _ => []
  | fuel + 1, ms :: rest =>
    let p := drainStore m ms rest
    p.1 ++ iterateMemStoresF m fuel p.2

/-- The `// Read remaining stuff from mem stores` pass (the trailing double loop of
`fileStore.iterate`): generations are consumed left to right in the order
of the snapshot slice. -/
def iterateMemStores (m : Nat → Seq → Seq → Seq) (mss : List MemStore) : List Row :=
  iterateMemStoresF m mss.length mss

theorem iterateMemStores_nil (m : Nat → Seq → Seq → Seq) :
    iterateMemStores m [] = [] := rfl

theorem iterateMemStores_cons (m : Nat → Seq → Seq → Seq)
    (ms : MemStore) (rest : List MemStore) :
    iterateMemStores m (ms :: rest) =
      (drainStore m ms rest).1 ++ iterateMemStores m (drainStore m ms rest).2 := by
  show iterateMemStoresF m (rest.length + 1) (ms :: rest) = _
  cases rest with
  | nil =>
    show (drainStore m ms []).1 ++ iterateMemStoresF m 0 (drainStore m ms []).2 = _
    rw [show (drainStore m ms []).2 = [] from
      List.length_eq_zero.mp (drainStore_sndLength m ms [])]
    rfl
  | cons s ss =>
    show (drainStore m ms (s :: ss)).1 ++
      iterateMemStoresF m (s :: ss).length (drainStore m ms (s :: ss)).2 = _
    rw [show (s :: ss).length = (drainStore m ms (s :: ss)).2.length from
      (drainStore_sndLength m ms (s :: ss)).symm]
    rfl

/-- The whole successful merge pass of `fileStore.iterate`: drain the file
records (fusing mem-store occurrences), then drain what remains of the
mem-store snapshots. -/
def runMerge (m : Nat → Seq → Seq → Seq) (recs : List Row)
    (mss : List MemStore) : List Row :=
  let p := iterateFileRecords m recs mss
  p.1 ++ iterateMemStores m p.2

/-- Outcome of `os.OpenFile(fs.filename, os.O_RDONLY, 0)`.  An empty
`fs.filename` (fresh store) also yields not-found. -/
inductive OpenResult where
  | ok (bytes : List Nat)
  | notFound
  | openErr (code : Nat)
deriving DecidableEq

/-- Errors `fileStore.iterate` can return. -/
inductive IterErr where
  | openFailed (code : Nat)
  | corrupt
deriving DecidableEq

/-- Model of `fileStore.iterate(onRow, memStores...)`: skip a missing file
(`os.IsNotExist`), fail on any other open error, otherwise decompress,
parse and merge.  `bytes` is the decompressed stream (snappy framing is
a transparent transport layer outside this extract).  The emitted rows are
returned in callback order.  (The source interleaves parsing and emission;
on a parse error it has already emitted earlier rows before returning the
error — the model keeps the error, which is the only part claims refer
to.) -/
def fileStoreIterate (m : Nat → Seq → Seq → Seq) (res : OpenResult)
    (mss : List MemStore) : Except IterErr (List Row) :=
  match res with
  | .openErr c => .error (.openFailed c)
  | .notFound => .ok (iterateMemStores m mss)
  | .ok bytes =>
    match parseAll bytes with
    | none => .error .corrupt
    | some recs => .ok (runMerge m recs mss)

/-- The index-to-merge instantiation used by the table:
`m i a b = a.merge(b, fields[i], resolution, truncateBefore)` with
`fields.getD` standing for Go's `fs.t.Fields[i]` indexing. -/
def tableMergeAt {F : Type} (mg : Seq → Seq → F → Nat → Nat → Seq)
    (fields : List F) (dflt : F) (res tb : Nat) : Nat → Seq → Seq → Seq :=
  fun i a b => mg a b (fields.getD i dflt) res tb

/-- Model of `rowStore.iterate(onValue)`: under the read lock it collects a shallow
copy of every live mem generation with
`for _, ms := range rs.memStores { memStoresCopy = append(...) }` and hands
the slice to `fileStore.iterate`.  `rs.memStores` is a Go map
(`map[int]memStore`), whose range order is unspecified: `order` records the
index sequence the range statement actually produced, so any permutation of
the registered indices is a legal execution. -/
def rowStoreIterate (m : Nat → Seq → Seq → Seq) (res : OpenResult)
    (gens : List (Nat × MemStore)) (order : List Nat) : Except IterErr (List Row) :=
  fileStoreIterate m res (order.map fun i => ((gens.lookup i).getD []))

/-! ## Flush write path (`processFlushes`' `write` callback)

`tr i s` stands for
`s.truncate(rs.t.Fields[i].EncodedWidth(), rs.t.Resolution, truncateBefore)`;
a truncated-to-`nil` sequence is `[]`. -/

/-- The loop `for i, seq := range columns { seq = seq.truncate(...); columns[i] = seq }`. -/
def truncCols (tr : Nat → Seq → Seq) : Nat → List Seq → List Seq
  | _, [] => []
  | i, c :: cs => tr i c :: truncCols tr (i + 1) cs

/-- The `write` callback of `processFlushes`: truncate every column, skip
the row when no sequence survives (`hasActiveSequence == false`), otherwise
emit the framed record. -/
def flushWriteRow (tr : Nat → Seq → Seq) (k : Key) (cols : List Seq) : List Nat :=
  let tc := truncCols tr 0 cols
  if tc.any (fun c => c ≠ []) then writeRecord k tc else []

/-- The byte stream a flush writes (before snappy compression): the
concatenation of `write`'s output over every row that
`fs.iterate(write, req.ms)` emits. -/
def flushOutput (tr : Nat → Seq → Seq) (m : Nat → Seq → Seq → Seq)
    (oldRecs : List Row) (frozen : MemStore) : List Nat :=
  (runMerge m oldRecs [frozen]).foldr
    (fun r acc => flushWriteRow tr r.1 r.2 ++ acc) []

/-! ## Ingest loop (`processInserts`)

`upd s v f r t` stands for the codec's
`s.update(v, f, resolution, truncateBefore)`.  The byte counter is a Go
`int`, so it is modelled as `Int` (the per-field delta
`len(updated) - previousSize` can be negative). -/

/-- The `// Grow sequences to match number of fields in table` loop. -/
def growSeqs (numFields : Nat) (seqs : List Seq) : List Seq :=
  seqs ++ List.replicate (numFields - seqs.length) ([] : Seq)

/-- The loop `for i, field := range rs.t.Fields { ... update ... }`: update the slot
of each field; slots beyond the field list are left unchanged. -/
def updateSeqs {F V : Type} (upd : Seq → V → F → Nat → Nat → Seq)
    (vals : V) (res tb : Nat) : List F → List Seq → List Seq
  | [], rest => rest
  | f :: fs, [] => upd [] vals f res tb :: updateSeqs upd vals res tb fs []
  | f :: fs, s :: ss => upd s vals f res tb :: updateSeqs upd vals res tb fs ss

/-- State of the ingest loop: the active generation's index, the byte
counter, the active generation, and the registry of frozen generations. -/
structure IngestState where
  curIdx : Nat
  counter : Int
  current : MemStore
  frozen : List (Nat × MemStore)
deriving DecidableEq

/-- One `insert := <-rs.inserts` step (without the flush check): charge
`len(key)` when the key is absent (`seqs == nil`), grow the vector, update
every field's slot charging `len(updated) - previousSize`, and store. -/
def insertStep {F V : Type} (upd : Seq → V → F → Nat → Nat → Seq)
    (fields : List F) (res tb : Nat) (k : Key) (vals : V)
    (st : IngestState) : IngestState :=
  let seqs := msLookup st.current k
  let keyCharge : Int := if seqs = [] then (k.length : Int) else 0
  let grown := growSeqs fields.length seqs
  let updated := updateSeqs upd vals res tb fields grown
  { st with
    counter := st.counter + keyCharge +
      ((updated.map List.length).sum : Int) - ((grown.map List.length).sum : Int),
    current := msInsert st.current k updated }

/-- The `flush` closure of `processInserts`: do nothing when the counter is
zero; otherwise snapshot the active generation, register a fresh empty
active generation under the next index, reset the counter, and hand the
frozen `(idx, snapshot)` to the flush worker. -/
def flushTrigger (st : IngestState) : IngestState × Option (Nat × MemStore) :=
  if st.counter = 0 then (st, none)
  else
    ({ curIdx := st.curIdx + 1, counter := 0, current := [],
       frozen := st.frozen ++ [(st.curIdx, st.current)] },
     some (st.curIdx, st.current))

/-- A full insert event: the insert step followed by
`if memStoreBytes >= rs.opts.maxMemStoreBytes { flush() }`. -/
def insertEvent {F V : Type} (upd : Seq → V → F → Nat → Nat → Seq)
    (fields : List F) (res tb : Nat) (maxBytes : Int) (k : Key) (vals : V)
    (st : IngestState) : IngestState × Option (Nat × MemStore) :=
  let st' := insertStep upd fields res tb k vals st
  if maxBytes ≤ st'.counter then flushTrigger st' else (st', none)

/-! ## Durable file names (`processFlushes` / `openRowStore`)

`fmt.Sprintf("filestore_%020d.dat", time.Now().UnixNano())`: the unix-nano
timestamp left-padded with zeros to 20 digits.  Names are byte strings
(lists of character codes). -/

/-- The character codes of `"filestore_"`. -/
def fileStoreStem : List Nat := [102, 105, 108, 101, 115, 116, 111, 114, 101, 95]

/-- The character codes of `".dat"`. -/
def dotDatSuffix : List Nat := [46, 100, 97, 116]

/-- The name `filestore_%020d.dat` for creation time `t` (unix nanoseconds): digits
are rendered as their character codes (`48 + d`). -/
def fileStoreName (t : Nat) : List Nat :=
  fileStoreStem ++ (natDigitsBE 10 20 t).map (fun d => 48 + d) ++ dotDatSuffix

/-- Strict lexicographic byte-string order (the order of a directory
listing). -/
def lexLt : List Nat → List Nat → Bool
  | [], [] => false
  | [], _ :: _ => true
  | _ :: _, [] => false
  | a :: as, b :: bs => if a < b then true else if a = b then lexLt as bs else false

/-- Startup selection of `openRowStore`: `ioutil.ReadDir` returns the
directory entries sorted by filename, and the store takes
`files[len(files)-1].Name()` — the last entry — when the directory is
non-empty (`none` models the empty initial filename). -/
def selectExistingFile (files : List (List Nat)) : Option (List Nat) :=
  files.getLast?

/-! ## Read/write race model (torn reads)

`memStore.copy` is a shallow copy: the snapshot's map entry holds the same
`[]sequence` backing array as the live generation (`memStoreCopy[key] =
seqs`).  `processInserts` mutates that array in place (`seqs[i] = updated`)
under the write lock, but `rowStore.iterate` releases the read lock before
the snapshot's columns are read.  The model replays one reader and one
writer over the shared vector of a single key: `w i` is the writer storing
field `i`'s updated sequence, `r i` is the reader loading field `i`. -/

inductive RwEv where
  | w (i : Nat)
  | r (i : Nat)
deriving DecidableEq

/-- Run a trace over the shared column vector: writer events store
`post[i]`, reader events record the value currently in the vector.
Returns the final vector and the reader's observations in read order. -/
def runRace (post : List Seq) : List RwEv → List Seq → List Seq × List Seq
  | [], vec => (vec, [])
  | .w i :: evs, vec => runRace post evs (vec.set i (post.getD i []))
  | .r i :: evs, vec =>
    let p := runRace post evs vec
    (p.1, vec.getD i [] :: p.2)

/-- Shuffle predicate `isShuffle xs ys zs`: `zs` is an interleaving of `xs` and `ys`
preserving each thread's program order.  The reader holds no lock while
reading, so every interleaving of its loads with the writer's stores is a
legal execution. -/
def isShuffle : List RwEv → List RwEv → List RwEv → Bool
  | [], [], [] => true
  | _ :: _, _, [] => false
  | [], _ :: _, [] => false
  | xs, ys, z :: zs =>
    (match xs with
     | x :: xs' => x = z && isShuffle xs' ys zs
     | [] => false) ||
    (match ys with
     | y :: ys' => y = z && isShuffle xs ys' zs
     | [] => false)


/-! ## Lemmas about the byte-level framing -/

theorem readBytes_lengths {n : Nat} {bs xs rest : List Nat}
    (h : readBytes n bs = some (xs, rest)) :
    xs.length = n ∧ rest.length + n = bs.length := by
  unfold readBytes at h
  split at h
  · rename_i hle
    injection h with h1
    injection h1 with hx hr
    subst hx; subst hr
    refine ⟨?_, ?_⟩
    · simp [List.length_take]
      omega
    · simp [List.length_drop]
      omega
  · exact absurd h (by simp)

theorem readUBE_lengths {w : Nat} {bs rest : List Nat} {v : Nat}
    (h : readUBE w bs = some (v, rest)) : rest.length + w = bs.length := by
  unfold readUBE at h
  split at h
  · exact absurd h (by simp)
  · rename_i ds rest' hb
    injection h with h1
    injection h1 with hv hr
    subst hr
    exact (readBytes_lengths hb).2

theorem readNums_length {n : Nat} {bs rest : List Nat} {vs : List Nat}
    (h : readNums n bs = some (vs, rest)) : rest.length ≤ bs.length := by
  induction n generalizing bs vs rest with
  | zero =>
    unfold readNums at h
    injection h with h1
    injection h1 with hv hr
    subst hr; exact Nat.le_refl _
  | succ n ih =>
    unfold readNums at h
    split at h
    · exact absurd h (by simp)
    · rename_i v bs1 hu
      split at h
      · exact absurd h (by simp)
      · rename_i vs' bs2 hn
        injection h with h1
        injection h1 with hv hr
        subst hr
        have l1 := readUBE_lengths hu
        have l2 := ih hn
        omega

theorem readSeqs_length {ls : List Nat} {bs rest : List Nat} {cs : List Seq}
    (h : readSeqs ls bs = some (cs, rest)) : rest.length ≤ bs.length := by
  induction ls generalizing bs cs rest with
  | nil =>
    unfold readSeqs at h
    injection h with h1
    injection h1 with hv hr
    subst hr; exact Nat.le_refl _
  | cons l ls ih =>
    unfold readSeqs at h
    split at h
    · exact absurd h (by simp)
    · rename_i c bs1 hb
      split at h
      · exact absurd h (by simp)
      · rename_i cs' bs2 hs
        injection h with h1
        injection h1 with hv hr
        subst hr
        have l1 := (readBytes_lengths hb).2
        have l2 := ih hs
        omega

theorem parseRecord_length_lt {bs rest : List Nat} {r : Row}
    (h : parseRecord bs = some (r, rest)) : rest.length < bs.length := by
  unfold parseRecord at h
  split at h
  · exact absurd h (by simp)
  · rename_i keyLen bs1 h1
    split at h
    · exact absurd h (by simp)
    · rename_i key bs2 h2
      split at h
      · exact absurd h (by simp)
      · rename_i numCols bs3 h3
        split at h
        · exact absurd h (by simp)
        · rename_i lens bs4 h4
          split at h
          · exact absurd h (by simp)
          · rename_i cols bs5 h5
            injection h with hh
            injection hh with hr hrest
            subst hrest
            have l1 := readUBE_lengths h1
            have l2 := (readBytes_lengths h2).2
            have l3 := readUBE_lengths h3
            have l4 := readNums_length h4
            have l5 := readSeqs_length h5
            omega

theorem parseAllF_fuel {fuel₁ fuel₂ : Nat} {bs : List Nat}
    (h₁ : bs.length ≤ fuel₁) (h₂ : bs.length ≤ fuel₂) :
    parseAllF fuel₁ bs = parseAllF fuel₂ bs := by
  induction fuel₁ generalizing bs fuel₂ with
  | zero =>
    have : bs = [] := List.length_eq_zero.mp (Nat.le_zero.mp h₁)
    subst this
    cases fuel₂ <;> rfl
  | succ fuel₁ ih =>
    cases bs with
    | nil => cases fuel₂ <;> rfl
    | cons b bs =>
      cases fuel₂ with
      | zero => exact absurd h₂ (by simp)
      | succ fuel₂ =>
        show (match parseRecord (b :: bs) with
          | none => none
          | some (r, rest) => (parseAllF fuel₁ rest).map (fun rs => r :: rs)) =
          (match parseRecord (b :: bs) with
          | none => none
          | some (r, rest) => (parseAllF fuel₂ rest).map (fun rs => r :: rs))
        cases hp : parseRecord (b :: bs) with
        | none => rfl
        | some p =>
          obtain ⟨r, rest⟩ := p
          have hlt := parseRecord_length_lt hp
          have hc : (b :: bs).length = bs.length + 1 := rfl
          simp only
          rw [@ih fuel₂ rest (by omega) (by omega)]

theorem parseAll_nil : parseAll [] = some [] := rfl

theorem parseAll_cons {bs rest : List Nat} {r : Row} (hne : bs ≠ [])
    (hp : parseRecord bs = some (r, rest)) :
    parseAll bs = (parseAll rest).map (fun rs => r :: rs) := by
  cases bs with
  | nil => exact absurd rfl hne
  | cons b bs =>
    show parseAllF (b :: bs).length (b :: bs) = _
    have hlt := parseRecord_length_lt hp
    rw [show (b :: bs).length = bs.length + 1 from rfl]
    show (match parseRecord (b :: bs) with
      | none => none
      | some (r, rest) => (parseAllF bs.length rest).map (fun rs => r :: rs)) = _
    rw [hp]
    simp only
    have hc : (b :: bs).length = bs.length + 1 := rfl
    rw [@parseAllF_fuel bs.length rest.length rest (by omega) (Nat.le_refl _)]
    rfl

/-! ## Round-trip of the record framing -/

theorem natDigitsBE_length (base : Nat) : ∀ w v, (natDigitsBE base w v).length = w := by
  intro w
  induction w with
  | zero => intro v; rfl
  | succ w ih => intro v; simp [natDigitsBE, ih]

theorem bytesToNatBE_natDigitsBE : ∀ w v, bytesToNatBE (natDigitsBE 256 w v) = v % 256 ^ w := by
  intro w
  induction w with
  | zero => intro v; simp [natDigitsBE, bytesToNatBE, Nat.mod_one]
  | succ w ih =>
    intro v
    have hlen := natDigitsBE_length 256 w (v % 256 ^ w)
    have h1 : 256 ^ (w + 1) = 256 ^ w * 256 := by ring
    have h2 : v % (256 ^ w * 256) / 256 ^ w = v / 256 ^ w % 256 :=
      Nat.mod_mul_right_div_self v (256 ^ w) 256
    have h3 : v % (256 ^ w * 256) % 256 ^ w = v % 256 ^ w :=
      Nat.mod_mul_right_mod v (256 ^ w) 256
    have hmm : v % 256 ^ w % 256 ^ w = v % 256 ^ w :=
      Nat.mod_mod_of_dvd _ dvd_rfl
    calc bytesToNatBE (natDigitsBE 256 (w + 1) v)
        = v / 256 ^ w % 256 * 256 ^ w + v % 256 ^ w := by
          simp [natDigitsBE, bytesToNatBE, hlen, ih, hmm]
      _ = v % 256 ^ (w + 1) := by
          rw [h1, ← h2, ← h3, mul_comm]
          exact Nat.div_add_mod _ _

theorem readBytes_append (xs rest : List Nat) :
    readBytes xs.length (xs ++ rest) = some (xs, rest) := by
  simp [readBytes]

theorem readBytes_append' (n : Nat) (xs rest : List Nat) (h : xs.length = n) :
    readBytes n (xs ++ rest) = some (xs, rest) := by
  subst h; exact readBytes_append xs rest

theorem readUBE_digits (w n : Nat) (rest : List Nat) :
    readUBE w (natDigitsBE 256 w n ++ rest) = some (n % 256 ^ w, rest) := by
  unfold readUBE
  rw [readBytes_append' w _ rest (natDigitsBE_length 256 w n)]
  simp [bytesToNatBE_natDigitsBE]

theorem readNums_flatten (lens : List Nat) (rest : List Nat)
    (h : ∀ l ∈ lens, l < 256 ^ 8) :
    readNums lens.length ((lens.map (natDigitsBE 256 8)).flatten ++ rest) =
      some (lens, rest) := by
  induction lens with
  | nil => simp [readNums]
  | cons l ls ih =>
    have hl : l % 256 ^ 8 = l := Nat.mod_eq_of_lt (h l (by simp))
    show readNums (ls.length + 1) _ = _
    unfold readNums
    rw [List.map_cons, List.flatten_cons, List.append_assoc, readUBE_digits, hl]
    dsimp only
    rw [ih (fun x hx => h x (by simp [hx]))]

theorem readSeqs_flatten (cols : List Seq) (rest : List Nat) :
    readSeqs (cols.map List.length) (cols.flatten ++ rest) = some (cols, rest) := by
  induction cols with
  | nil => simp [readSeqs]
  | cons c cs ih =>
    rw [List.map_cons, List.flatten_cons, List.append_assoc]
    unfold readSeqs
    rw [readBytes_append]
    dsimp only
    rw [ih]

theorem parseRecord_writeRecord (k : Key) (cols : List Seq) (rest : List Nat)
    (hk : k.length < 256 ^ 2) (hc : cols.length < 256 ^ 2)
    (hl : ∀ c ∈ cols, c.length < 256 ^ 8) :
    parseRecord (writeRecord k cols ++ rest) = some ((k, cols), rest) := by
  unfold parseRecord writeRecord
  rw [List.append_assoc, List.append_assoc, List.append_assoc, List.append_assoc,
    readUBE_digits, Nat.mod_eq_of_lt hk]
  dsimp only
  rw [readBytes_append]
  dsimp only
  rw [readUBE_digits, Nat.mod_eq_of_lt hc]
  dsimp only
  have hmm : (cols.map fun c => natDigitsBE 256 8 c.length)
      = (cols.map List.length).map (natDigitsBE 256 8) := by
    simp [List.map_map]
  rw [show cols.length = (cols.map List.length).length from (List.length_map _ _).symm,
    hmm, readNums_flatten _ _ (by intro l hlm; obtain ⟨c, hcm, hce⟩ := List.mem_map.mp hlm; exact hce ▸ hl c hcm)]
  dsimp only
  rw [readSeqs_flatten]

theorem writeRecord_ne_nil (k : Key) (cols : List Seq) (rest : List Nat) :
    writeRecord k cols ++ rest ≠ [] := by
  intro h
  have := congrArg List.length h
  simp [writeRecord, natDigitsBE_length] at this

theorem parseAll_encodeRecords (recs : List Row)
    (hk : ∀ r ∈ recs, r.1.length < 256 ^ 2)
    (hc : ∀ r ∈ recs, r.2.length < 256 ^ 2)
    (hl : ∀ r ∈ recs, ∀ c ∈ r.2, c.length < 256 ^ 8) :
    parseAll (encodeRecords recs) = some recs := by
  induction recs with
  | nil => simp [encodeRecords, parseAll_nil]
  | cons r rs ih =>
    obtain ⟨k, cols⟩ := r
    have henc : encodeRecords ((k, cols) :: rs) = writeRecord k cols ++ encodeRecords rs := by
      simp [encodeRecords]
    rw [henc, parseAll_cons (writeRecord_ne_nil k cols _)
      (parseRecord_writeRecord k cols _ (hk (k, cols) (List.mem_cons_self _ _))
        (hc (k, cols) (List.mem_cons_self _ _)) (hl (k, cols) (List.mem_cons_self _ _)))]
    rw [ih (fun x hx => hk x (by simp [hx])) (fun x hx => hc x (by simp [hx]))
      (fun x hx => hl x (by simp [hx]))]
    rfl

/-! ## Lemmas about mem stores -/

theorem msErase_sublist (s : MemStore) (k : Key) : (msErase s k).Sublist s := by
  induction s with
  | nil => simp [msErase]
  | cons e rest ih =>
    obtain ⟨k', v⟩ := e
    by_cases h : k' = k
    · simp only [msErase, if_pos h]
      exact List.sublist_cons_self _ _
    · simp only [msErase, if_neg h]
      exact ih.cons₂ _

theorem msKeys_msErase_sublist (s : MemStore) (k : Key) :
    (msKeys (msErase s k)).Sublist (msKeys s) :=
  (msErase_sublist s k).map Prod.fst

theorem nodup_msKeys_msErase {s : MemStore} (k : Key) (h : (msKeys s).Nodup) :
    (msKeys (msErase s k)).Nodup :=
  (msKeys_msErase_sublist s k).nodup h

theorem not_mem_msKeys_msErase {s : MemStore} {k : Key} (h : (msKeys s).Nodup) :
    k ∉ msKeys (msErase s k) := by
  induction s with
  | nil => simp [msErase, msKeys]
  | cons e rest ih =>
    obtain ⟨k', v⟩ := e
    have h' : k' ∉ msKeys rest ∧ (msKeys rest).Nodup := by
      simpa [msKeys] using h
    by_cases hk : k' = k
    · simp only [msErase, if_pos hk]
      exact fun hm => h'.1 (hk ▸ hm)
    · simp only [msErase, if_neg hk, msKeys, List.map_cons, List.mem_cons]
      rintro (rfl | hm)
      · exact hk rfl
      · exact ih h'.2 hm

theorem mem_msKeys_msErase_iff {k k₀ : Key} (hne : k ≠ k₀) (s : MemStore) :
    k ∈ msKeys (msErase s k₀) ↔ k ∈ msKeys s := by
  induction s with
  | nil => simp [msErase]
  | cons e rest ih =>
    obtain ⟨k', v⟩ := e
    by_cases hk : k' = k₀
    · subst hk
      simp only [msErase, if_pos rfl, msKeys, List.map_cons, List.mem_cons]
      exact ⟨Or.inr, fun h => h.elim (fun h => absurd h hne) id⟩
    · simp only [msErase, if_neg hk, msKeys, List.map_cons, List.mem_cons]
      exact or_congr Iff.rfl ih

theorem msLookup_msErase {k k₀ : Key} (hne : k ≠ k₀) (s : MemStore) :
    msLookup (msErase s k₀) k = msLookup s k := by
  induction s with
  | nil => simp [msErase]
  | cons e rest ih =>
    obtain ⟨k', v⟩ := e
    by_cases hk : k' = k₀
    · subst hk
      have : ¬ (k' = k) := fun h => hne (h ▸ rfl)
      simp [msErase, msLookup, this]
    · simp only [msErase, if_neg hk, msLookup]
      by_cases hk' : k' = k
      · simp [hk']
      · simp [hk', ih]

theorem eraseKeys_nil (s : MemStore) : eraseKeys s [] = s := rfl

theorem eraseKeys_cons (s : MemStore) (k : Key) (ks : List Key) :
    eraseKeys s (k :: ks) = eraseKeys (msErase s k) ks := rfl

theorem not_mem_msKeys_eraseKeys_of {s : MemStore} {k : Key} (ks : List Key)
    (h : k ∉ msKeys s) : k ∉ msKeys (eraseKeys s ks) := by
  induction ks generalizing s with
  | nil => exact h
  | cons k' ks ih =>
    rw [eraseKeys_cons]
    exact ih fun hm => h ((msKeys_msErase_sublist s k').subset hm)

theorem nodup_msKeys_eraseKeys {s : MemStore} (ks : List Key)
    (h : (msKeys s).Nodup) : (msKeys (eraseKeys s ks)).Nodup := by
  induction ks generalizing s with
  | nil => exact h
  | cons k' ks ih =>
    rw [eraseKeys_cons]
    exact ih (nodup_msKeys_msErase k' h)

theorem not_mem_msKeys_eraseKeys_of_mem {s : MemStore} {k : Key} {ks : List Key}
    (hk : k ∈ ks) (h : (msKeys s).Nodup) : k ∉ msKeys (eraseKeys s ks) := by
  induction ks generalizing s with
  | nil => exact absurd hk (List.not_mem_nil k)
  | cons k' ks ih =>
    rw [eraseKeys_cons]
    rcases List.mem_cons.mp hk with rfl | hk'
    · exact not_mem_msKeys_eraseKeys_of ks (not_mem_msKeys_msErase h)
    · exact ih hk' (nodup_msKeys_msErase k' h)

theorem mem_msKeys_eraseKeys_iff {k : Key} {ks : List Key} (hk : k ∉ ks)
    (s : MemStore) : k ∈ msKeys (eraseKeys s ks) ↔ k ∈ msKeys s := by
  induction ks generalizing s with
  | nil => exact Iff.rfl
  | cons k' ks ih =>
    have h1 : k ≠ k' := fun h => hk (h ▸ List.mem_cons_self k' ks)
    have h2 : k ∉ ks := fun h => hk (List.mem_cons_of_mem k' h)
    rw [eraseKeys_cons]
    exact (ih h2 _).trans (mem_msKeys_msErase_iff h1 s)

theorem msLookup_eraseKeys {k : Key} {ks : List Key} (hk : k ∉ ks)
    (s : MemStore) : msLookup (eraseKeys s ks) k = msLookup s k := by
  induction ks generalizing s with
  | nil => rfl
  | cons k' ks ih =>
    have h1 : k ≠ k' := fun h => hk (h ▸ List.mem_cons_self k' ks)
    have h2 : k ∉ ks := fun h => hk (List.mem_cons_of_mem k' h)
    rw [eraseKeys_cons, ih h2, msLookup_msErase h1]

/-! ## Lemmas about the merge passes -/

theorem mergeWithMemStores_snd (m : Nat → Seq → Seq → Seq) (k : Key)
    (cols : List Seq) (mss : List MemStore) :
    (mergeWithMemStores m k cols mss).2 = mss.map (fun s => msErase s k) := by
  induction mss generalizing cols with
  | nil => rfl
  | cons ms rest ih => simp [mergeWithMemStores, ih]

theorem mergeWithMemStores_fst (m : Nat → Seq → Seq → Seq) (k : Key)
    (cols : List Seq) (mss : List MemStore) :
    (mergeWithMemStores m k cols mss).1 = mergeFold m k cols mss := by
  induction mss generalizing cols with
  | nil => rfl
  | cons ms rest ih => simp [mergeWithMemStores, mergeFold, ih, List.foldl_cons]

theorem mergeFold_map (m : Nat → Seq → Seq → Seq) (k : Key) (cols : List Seq)
    (mss : List MemStore) (f : MemStore → MemStore)
    (hf : ∀ s ∈ mss, msLookup (f s) k = msLookup s k) :
    mergeFold m k cols (mss.map f) = mergeFold m k cols mss := by
  induction mss generalizing cols with
  | nil => rfl
  | cons s ss ih =>
    simp only [List.map_cons, mergeFold, List.foldl_cons]
    rw [hf s (List.mem_cons_self s ss)]
    exact ih _ fun s' hs' => hf s' (List.mem_cons_of_mem s hs')

theorem iterateFileRecords_fst_keys (m : Nat → Seq → Seq → Seq)
    (recs : List Row) (mss : List MemStore) :
    (iterateFileRecords m recs mss).1.map Prod.fst = recs.map Prod.fst := by
  induction recs generalizing mss with
  | nil => rfl
  | cons r recs ih =>
    obtain ⟨k, cols⟩ := r
    simp [iterateFileRecords, ih]

theorem iterateFileRecords_snd (m : Nat → Seq → Seq → Seq)
    (recs : List Row) (mss : List MemStore) :
    (iterateFileRecords m recs mss).2 =
      mss.map (fun s => eraseKeys s (recs.map Prod.fst)) := by
  induction recs generalizing mss with
  | nil => simp [iterateFileRecords, eraseKeys_nil]
  | cons r recs ih =>
    obtain ⟨k, cols⟩ := r
    simp only [iterateFileRecords, ih, mergeWithMemStores_snd, List.map_map,
      List.map_cons]
    exact List.map_congr_left fun s _ => rfl

theorem drainStore_fst_keys (m : Nat → Seq → Seq → Seq) (ms : MemStore)
    (rest : List MemStore) :
    (drainStore m ms rest).1.map Prod.fst = msKeys ms := by
  induction ms generalizing rest with
  | nil => rfl
  | cons e entries ih =>
    obtain ⟨k, cols⟩ := e
    simp [drainStore, msKeys, ih]

theorem drainStore_snd (m : Nat → Seq → Seq → Seq) (ms : MemStore)
    (rest : List MemStore) :
    (drainStore m ms rest).2 = rest.map (fun s => eraseKeys s (msKeys ms)) := by
  induction ms generalizing rest with
  | nil => simp [drainStore, msKeys, eraseKeys_nil]
  | cons e entries ih =>
    obtain ⟨k, cols⟩ := e
    simp only [drainStore, ih, mergeWithMemStores_snd, List.map_map, msKeys,
      List.map_cons]
    exact List.map_congr_left fun s _ => rfl

theorem drainStore_fst (m : Nat → Seq → Seq → Seq) (ms : MemStore)
    (rest : List MemStore) (h : (msKeys ms).Nodup) :
    (drainStore m ms rest).1 =
      ms.map (fun e => (e.1, mergeFold m e.1 e.2 rest)) := by
  induction ms generalizing rest with
  | nil => rfl
  | cons e entries ih =>
    obtain ⟨k, cols⟩ := e
    have hk : k ∉ msKeys entries ∧ (msKeys entries).Nodup := by
      simpa [msKeys] using h
    simp only [drainStore, List.map_cons]
    refine congrArg₂ _ (congrArg _ (mergeWithMemStores_fst m k cols rest)) ?_
    rw [ih _ hk.2, mergeWithMemStores_snd]
    refine List.map_congr_left fun e' he' => ?_
    have hne : e'.1 ≠ k := fun hkk =>
      hk.1 (hkk ▸ List.mem_map_of_mem Prod.fst he')
    rw [mergeFold_map m e'.1 e'.2 rest _
      (fun s _ => msLookup_msErase hne s)]

theorem count_eq_one_of_mem_nodup {l : List Key} {a : Key}
    (d : l.Nodup) (h : a ∈ l) : l.count a = 1 := by
  induction l with
  | nil => exact absurd h (List.not_mem_nil a)
  | cons b l ih =>
    rcases List.mem_cons.mp h with rfl | h'
    · have hb : a ∉ l := (List.nodup_cons.mp d).1
      rw [List.count_cons_self, List.count_eq_zero.mpr hb]
    · have hne : a ≠ b := fun e => (List.nodup_cons.mp d).1 (e ▸ h')
      rw [List.count_cons_of_ne hne]
      exact ih (List.nodup_cons.mp d).2 h'

theorem count_iterateMemStoresF (m : Nat → Seq → Seq → Seq) :
    ∀ (fuel : Nat) (mss : List MemStore), mss.length = fuel →
    (∀ ms ∈ mss, (msKeys ms).Nodup) → ∀ k : Key,
    ((iterateMemStoresF m fuel mss).map Prod.fst).count k =
      if ∃ ms ∈ mss, k ∈ msKeys ms then 1 else 0 := by
  intro fuel
  induction fuel with
  | zero =>
    intro mss hlen hnd k
    have : mss = [] := List.length_eq_zero.mp hlen
    subst this
    simp [iterateMemStoresF]
  | succ fuel ih =>
    intro mss hlen hnd k
    cases mss with
    | nil => exact absurd hlen (by simp)
    | cons ms rest =>
      show (((drainStore m ms rest).1 ++
        iterateMemStoresF m fuel (drainStore m ms rest).2).map Prod.fst).count k = _
      rw [List.map_append, List.count_append, drainStore_fst_keys]
      have hlen2 : (drainStore m ms rest).2.length = fuel := by
        rw [drainStore_sndLength]
        simpa using hlen
      have hnd2 : ∀ s ∈ (drainStore m ms rest).2, (msKeys s).Nodup := by
        rw [drainStore_snd]
        intro s hs
        obtain ⟨s0, hs0, rfl⟩ := List.mem_map.mp hs
        exact nodup_msKeys_eraseKeys _ (hnd s0 (List.mem_cons_of_mem _ hs0))
      rw [ih _ hlen2 hnd2 k]
      by_cases hk : k ∈ msKeys ms
      · have h1 : (msKeys ms).count k = 1 :=
          count_eq_one_of_mem_nodup (hnd ms (List.mem_cons_self _ _)) hk
        have hcond2 : ¬ ∃ s ∈ (drainStore m ms rest).2, k ∈ msKeys s := by
          rw [drainStore_snd]
          rintro ⟨s, hs, hmem⟩
          obtain ⟨s0, hs0, rfl⟩ := List.mem_map.mp hs
          exact not_mem_msKeys_eraseKeys_of_mem hk
            (hnd s0 (List.mem_cons_of_mem _ hs0)) hmem
        rw [if_neg hcond2, if_pos ⟨ms, List.mem_cons_self _ _, hk⟩]
        omega
      · have h0 : (msKeys ms).count k = 0 := List.count_eq_zero.mpr hk
        have hiff : (∃ s ∈ (drainStore m ms rest).2, k ∈ msKeys s) ↔
            (∃ s ∈ rest, k ∈ msKeys s) := by
          rw [drainStore_snd]
          constructor
          · rintro ⟨s, hs, hmem⟩
            obtain ⟨s0, hs0, rfl⟩ := List.mem_map.mp hs
            exact ⟨s0, hs0, (mem_msKeys_eraseKeys_iff hk s0).mp hmem⟩
          · rintro ⟨s0, hs0, hmem⟩
            exact ⟨eraseKeys s0 (msKeys ms), List.mem_map_of_mem _ hs0,
              (mem_msKeys_eraseKeys_iff hk s0).mpr hmem⟩
        by_cases hex : ∃ s ∈ rest, k ∈ msKeys s
        · have hall : ∃ s ∈ ms :: rest, k ∈ msKeys s :=
            let ⟨s, hs, hm⟩ := hex
            ⟨s, List.mem_cons_of_mem _ hs, hm⟩
          rw [if_pos (hiff.mpr hex), if_pos hall]
          omega
        · have hnot : ¬ ∃ s ∈ ms :: rest, k ∈ msKeys s := by
            rintro ⟨s, hs, hm⟩
            rcases List.mem_cons.mp hs with rfl | hs'
            · exact hk hm
            · exact hex ⟨s, hs', hm⟩
          rw [if_neg (fun hh => hex (hiff.mp hh)), if_neg hnot]
          omega

/-! ## Per-index characterization of the pairwise merge -/

theorem pairwiseMergeAux_length (m : Nat → Seq → Seq → Seq) :
    ∀ (take : List Seq) (j : Nat) (cols : List Seq),
    (pairwiseMergeAux m j cols take).length = max cols.length take.length := by
  intro take
  induction take with
  | nil =>
    intro j cols
    simp [pairwiseMergeAux]
  | cons c2 cs2 ih =>
    intro j cols
    cases cols with
    | nil =>
      show (c2 :: pairwiseMergeAux m (j + 1) [] cs2).length = _
      simp only [List.length_cons, List.length_nil, ih]
      omega
    | cons c cs =>
      show (m j c c2 :: pairwiseMergeAux m (j + 1) cs cs2).length = _
      simp only [List.length_cons, ih]
      omega

theorem pairwiseMergeAux_getD (m : Nat → Seq → Seq → Seq) :
    ∀ (take : List Seq) (j : Nat) (cols : List Seq) (i : Nat),
    i < max cols.length take.length →
    (pairwiseMergeAux m j cols take).getD i [] =
      if take.length ≤ i then cols.getD i []
      else if cols.length ≤ i then take.getD i []
      else m (j + i) (cols.getD i []) (take.getD i []) := by
  intro take
  induction take with
  | nil =>
    intro j cols i hi
    simp [pairwiseMergeAux]
  | cons c2 cs2 ih =>
    intro j cols i hi
    cases cols with
    | nil =>
      cases i with
      | zero =>
        show (c2 :: pairwiseMergeAux m (j + 1) [] cs2).getD 0 [] = _
        simp
      | succ i =>
        show (c2 :: pairwiseMergeAux m (j + 1) [] cs2).getD (i + 1) [] = _
        rw [List.getD_cons_succ]
        have hi' : i < cs2.length := by
          simp at hi
          omega
        rw [ih (j + 1) [] i (by simp; omega)]
        simp only [List.length_nil, List.length_cons, List.getD_cons_succ]
        rw [if_neg (show ¬ cs2.length ≤ i by omega), if_pos (Nat.zero_le i)]
        rw [if_neg (show ¬ (cs2.length + 1 ≤ i + 1) by omega),
          if_pos (Nat.zero_le (i + 1))]
    | cons c cs =>
      cases i with
      | zero =>
        show (m j c c2 :: pairwiseMergeAux m (j + 1) cs cs2).getD 0 [] = _
        simp
      | succ i =>
        show (m j c c2 :: pairwiseMergeAux m (j + 1) cs cs2).getD (i + 1) [] = _
        rw [List.getD_cons_succ]
        have hi' : i < max cs.length cs2.length := by
          simp at hi ⊢
          omega
        rw [ih (j + 1) cs i hi']
        simp only [List.length_cons, List.getD_cons_succ]
        have hj : j + 1 + i = j + (i + 1) := by omega
        by_cases h2 : cs2.length ≤ i
        · rw [if_pos h2, if_pos (show cs2.length + 1 ≤ i + 1 by omega)]
        · rw [if_neg h2, if_neg (show ¬ (cs2.length + 1 ≤ i + 1) by omega)]
          by_cases h1 : cs.length ≤ i
          · rw [if_pos h1, if_pos (show cs.length + 1 ≤ i + 1 by omega)]
          · rw [if_neg h1, if_neg (show ¬ (cs.length + 1 ≤ i + 1) by omega), hj]

/-! ## Lexicographic order of durable file names -/

theorem lexLt_append_left : ∀ (p x y : List Nat), lexLt (p ++ x) (p ++ y) = lexLt x y := by
  intro p
  induction p with
  | nil => intro x y; rfl
  | cons a p ih =>
    intro x y
    show (if a < a then true else if a = a then lexLt (p ++ x) (p ++ y) else false) = _
    rw [if_neg (lt_irrefl a), if_pos rfl, ih]

theorem lexLt_append_of_length_eq :
    ∀ (x y s t : List Nat), x.length = y.length → lexLt x y = true →
    lexLt (x ++ s) (y ++ t) = true := by
  intro x
  induction x with
  | nil =>
    intro y s t hlen h
    have : y = [] := List.length_eq_zero.mp hlen.symm
    subst this
    exact absurd h (by simp [lexLt])
  | cons a x ih =>
    intro y s t hlen h
    cases y with
    | nil => exact absurd hlen (by simp)
    | cons b y =>
      show (if a < b then true else if a = b then lexLt (x ++ s) (y ++ t) else false) = true
      by_cases hab : a < b
      · rw [if_pos hab]
      · rw [if_neg hab]
        have h' : (if a < b then true else if a = b then lexLt x y else false) = true := h
        rw [if_neg hab] at h'
        by_cases heq : a = b
        · rw [if_pos heq] at h' ⊢
          exact ih y s t (by simpa using hlen) h'
        · rw [if_neg heq] at h'
          exact absurd h' (by simp)

theorem natDigitsBE_lexLt :
    ∀ (w a b : Nat), a < b → b < 10 ^ w →
    lexLt (natDigitsBE 10 w a) (natDigitsBE 10 w b) = true := by
  intro w
  induction w with
  | zero =>
    intro a b hab hb
    simp at hb
    omega
  | succ w ih =>
    intro a b hab hb
    have ha : a < 10 ^ (w + 1) := lt_trans hab hb
    have hpow : 10 ^ (w + 1) = 10 ^ w * 10 := by ring
    have hda : a / 10 ^ w < 10 := Nat.div_lt_of_lt_mul (hpow ▸ ha)
    have hdb : b / 10 ^ w < 10 := Nat.div_lt_of_lt_mul (hpow ▸ hb)
    show (if a / 10 ^ w % 10 < b / 10 ^ w % 10 then true
      else if a / 10 ^ w % 10 = b / 10 ^ w % 10 then
        lexLt (natDigitsBE 10 w (a % 10 ^ w)) (natDigitsBE 10 w (b % 10 ^ w))
      else false) = true
    rw [Nat.mod_eq_of_lt hda, Nat.mod_eq_of_lt hdb]
    rcases Nat.lt_trichotomy (a / 10 ^ w) (b / 10 ^ w) with hlt | heq | hgt
    · rw [if_pos hlt]
    · rw [if_neg (by omega), if_pos heq]
      have e1 := Nat.div_add_mod a (10 ^ w)
      have e2 := Nat.div_add_mod b (10 ^ w)
      rw [heq] at e1
      have hmlt : a % 10 ^ w < b % 10 ^ w := by omega
      have hmb : b % 10 ^ w < 10 ^ w := Nat.mod_lt b (Nat.pos_pow_of_pos w (by omega))
      exact ih _ _ hmlt hmb
    · have hle : a / 10 ^ w ≤ b / 10 ^ w := Nat.div_le_div_right (Nat.le_of_lt hab)
      omega

theorem lexLt_map_add (c : Nat) :
    ∀ (x y : List Nat), lexLt (x.map (fun d => c + d)) (y.map (fun d => c + d)) = lexLt x y := by
  intro x
  induction x with
  | nil =>
    intro y
    cases y <;> rfl
  | cons a x ih =>
    intro y
    cases y with
    | nil => rfl
    | cons b y =>
      show (if c + a < c + b then true else if c + a = c + b then
        lexLt (x.map _) (y.map _) else false) = _
      show _ = (if a < b then true else if a = b then lexLt x y else false)
      by_cases hab : a < b
      · rw [if_pos hab, if_pos (by omega)]
      · rw [if_neg hab, if_neg (by omega)]
        by_cases heq : a = b
        · rw [if_pos heq, if_pos (by omega), ih]
        · rw [if_neg heq, if_neg (by omega)]

theorem fileStoreName_lexLt (t₁ t₂ : Nat) (h : t₁ < t₂) (h₂ : t₂ < 10 ^ 20) :
    lexLt (fileStoreName t₁) (fileStoreName t₂) = true := by
  unfold fileStoreName
  rw [List.append_assoc, List.append_assoc, lexLt_append_left]
  refine lexLt_append_of_length_eq _ _ _ _ ?_ ?_
  · simp [natDigitsBE_length]
  · rw [lexLt_map_add]
    exact natDigitsBE_lexLt 20 t₁ t₂ h h₂

/-! ## The flush writer drops fully-expired rows -/

theorem foldr_flushWriteRow (tr : Nat → Seq → Seq) (rows : List Row) :
    rows.foldr (fun r acc => flushWriteRow tr r.1 r.2 ++ acc) [] =
      (((rows.map fun r => (r.1, truncCols tr 0 r.2)).filter
        (fun r => r.2.any fun c => c ≠ [])).map fun r => writeRecord r.1 r.2).flatten := by
  induction rows with
  | nil => rfl
  | cons r rows ih =>
    simp only [List.foldr_cons, List.map_cons]
    by_cases h : ((truncCols tr 0 r.2).any fun c => c ≠ []) = true
    · rw [List.filter_cons_of_pos (by simpa using h), List.map_cons, List.flatten_cons, ← ih]
      show flushWriteRow tr r.1 r.2 ++ _ = writeRecord r.1 (truncCols tr 0 r.2) ++ _
      rw [show flushWriteRow tr r.1 r.2 = writeRecord r.1 (truncCols tr 0 r.2) by
        unfold flushWriteRow; rw [if_pos h]]
    · rw [List.filter_cons_of_neg (by simpa using h), ← ih]
      show flushWriteRow tr r.1 r.2 ++ _ = _
      rw [show flushWriteRow tr r.1 r.2 = [] by
        unfold flushWriteRow; rw [if_neg h]]
      rfl

/-! ## Byte accounting of the ingest loop -/

theorem growSeqs_length_sum (n : Nat) (seqs : List Seq) :
    ((growSeqs n seqs).map List.length).sum = (seqs.map List.length).sum := by
  unfold growSeqs
  rw [List.map_append, List.sum_append]
  have : ∀ m : Nat, ((List.replicate m ([] : Seq)).map List.length).sum = 0 := by
    intro m
    induction m with
    | zero => rfl
    | succ m ih => simp [List.replicate_succ, ih]
  rw [this, Nat.add_zero]

/-! ## Startup selection of the durable file -/

theorem selectExistingFile_spec :
    ∀ (files : List (List Nat)) (sel : List Nat),
    files.Pairwise (fun a b => lexLt a b = true) →
    selectExistingFile files = some sel →
    ∀ f ∈ files, f = sel ∨ lexLt f sel = true := by
  intro files
  induction files with
  | nil =>
    intro sel _ hsel
    exact absurd hsel (by simp [selectExistingFile])
  | cons x xs ih =>
    intro sel hsort hsel f hf
    cases xs with
    | nil =>
      rcases List.mem_cons.mp hf with rfl | hmem
      · left
        have h1 : selectExistingFile [f] = some f := rfl
        rw [h1] at hsel
        exact Option.some.inj hsel
      · exact absurd hmem (List.not_mem_nil f)
    | cons y ys =>
      have hsel' : selectExistingFile (y :: ys) = some sel := by
        simpa [selectExistingFile, List.getLast?_cons_cons] using hsel
      have hsort' : (y :: ys).Pairwise (fun a b => lexLt a b = true) :=
        (List.pairwise_cons.mp hsort).2
      rcases List.mem_cons.mp hf with rfl | hmem
      · have h2 : sel ∈ (y :: ys).getLast? := hsel'
        obtain ⟨hne, heq⟩ := List.mem_getLast?_eq_getLast h2
        have hmemsel : sel ∈ y :: ys := by
          rw [heq]
          exact List.getLast_mem hne
        exact Or.inr ((List.pairwise_cons.mp hsort).1 sel hmemsel)
      · exact ih sel hsort' hsel' f hmem

/-! ## Claim theorems -/

/-- C1. Merge completeness of `fileStore.iterate`: for every key present
in the durable file (its parsed records) or in any mem-generation snapshot,
the iteration emits exactly one row with that key — a file key is emitted
once (removed from every snapshot on the way), and every key remaining in
the snapshots afterwards is emitted exactly once by the trailing loop; no
other key is emitted.  Go maps have unique keys, hence the `Nodup`
hypotheses; files written by flush likewise hold one record per key. -/
theorem claim1_merge_completeness (m : Nat → Seq → Seq → Seq) (bytes : List Nat)
    (recs : List Row) (mss : List MemStore)
    (hparse : parseAll bytes = some recs)
    (hrec : (recs.map Prod.fst).Nodup)
    (hms : ∀ ms ∈ mss, (msKeys ms).Nodup) (k : Key) :
    ∃ rows, fileStoreIterate m (.ok bytes) mss = .ok rows ∧
      (rows.map Prod.fst).count k =
        if k ∈ recs.map Prod.fst ∨ ∃ ms ∈ mss, k ∈ msKeys ms then 1 else 0 := by
  refine ⟨runMerge m recs mss, ?_, ?_⟩
  · unfold fileStoreIterate
    dsimp only
    rw [hparse]
  · unfold runMerge
    rw [List.map_append, List.count_append, iterateFileRecords_fst_keys]
    have hsnd := iterateFileRecords_snd m recs mss
    have hnd2 : ∀ s ∈ (iterateFileRecords m recs mss).2, (msKeys s).Nodup := by
      rw [hsnd]
      intro s hs
      obtain ⟨s0, hs0, rfl⟩ := List.mem_map.mp hs
      exact nodup_msKeys_eraseKeys _ (hms s0 hs0)
    rw [show iterateMemStores m (iterateFileRecords m recs mss).2 =
      iterateMemStoresF m (iterateFileRecords m recs mss).2.length
        (iterateFileRecords m recs mss).2 from rfl]
    rw [count_iterateMemStoresF m _ _ rfl hnd2 k]
    by_cases hk : k ∈ recs.map Prod.fst
    · rw [count_eq_one_of_mem_nodup hrec hk]
      have hno : ¬ ∃ s ∈ (iterateFileRecords m recs mss).2, k ∈ msKeys s := by
        rw [hsnd]
        rintro ⟨s, hs, hmem⟩
        obtain ⟨s0, hs0, rfl⟩ := List.mem_map.mp hs
        exact not_mem_msKeys_eraseKeys_of_mem hk (hms s0 hs0) hmem
      rw [if_neg hno, if_pos (Or.inl hk)]
    · rw [List.count_eq_zero.mpr hk]
      have hiff : (∃ s ∈ (iterateFileRecords m recs mss).2, k ∈ msKeys s) ↔
          ∃ s ∈ mss, k ∈ msKeys s := by
        rw [hsnd]
        constructor
        · rintro ⟨s, hs, hmem⟩
          obtain ⟨s0, hs0, rfl⟩ := List.mem_map.mp hs
          exact ⟨s0, hs0, (mem_msKeys_eraseKeys_iff hk s0).mp hmem⟩
        · rintro ⟨s0, hs0, hmem⟩
          exact ⟨_, List.mem_map_of_mem _ hs0, (mem_msKeys_eraseKeys_iff hk s0).mpr hmem⟩
      by_cases hex : ∃ s ∈ mss, k ∈ msKeys s
      · rw [if_pos (hiff.mpr hex), if_pos (Or.inr hex)]
      · rw [if_neg (fun hh => hex (hiff.mp hh)),
          if_neg (by rintro (h | h); exacts [hk h, hex h])]

/-- Witness for C1 at a concrete file record and a concrete snapshot. -/
theorem claim1_merge_completeness_witness :
    ∃ rows, fileStoreIterate (fun _ a b => a ++ b)
        (.ok (encodeRecords [([1], [[9]])])) [[([2], [[8]])]] = .ok rows ∧
      (rows.map Prod.fst).count [1] =
        if [1] ∈ ([([1], [[9]])] : List Row).map Prod.fst ∨
            ∃ ms ∈ ([[([2], [[8]])]] : List MemStore), [1] ∈ msKeys ms then 1 else 0 :=
  claim1_merge_completeness (fun _ a b => a ++ b) (encodeRecords [([1], [[9]])])
    [([1], [[9]])] [[([2], [[8]])]] (by decide) (by decide) (by decide) [1]

/-- C2 counterexample. The read path does not drop retention-expired
rows: with a codec under which every sequence truncates to empty (`truncate`
returns `nil` for everything), a durable-file record is still yielded to the
iteration callback — `fileStore.iterate` never calls `truncate` on the
columns it reads (lines 323–386 of the source; only the flush `write`
callback filters, lines 177–191). -/
theorem claim2_counterexample :
    fileStoreIterate (fun _ a b => a ++ b)
      (.ok (encodeRecords [([5], [[7]])])) [] = .ok [([5], [[7]])] ∧
    (truncCols (fun _ _ => ([] : Seq)) 0 [[7]]).all (fun c => c = []) = true :=
  ⟨rfl, by decide⟩

/-- C2 (amended). The flush write path truncates every column at the
retention horizon and writes nothing for a row whose every sequence
truncates to empty (the durable file holds only rows with a surviving
sequence); the read-side iteration, however, yields every parsed file
record unconditionally — it applies no truncation filter (the per-insert
path passes `truncate_before` to the codec's `update`, see `insertStep`). -/
theorem claim2_retention (tr : Nat → Seq → Seq) (m : Nat → Seq → Seq → Seq)
    (oldRecs : List Row) (frozen : MemStore) :
    (flushOutput tr m oldRecs frozen =
      ((((runMerge m oldRecs [frozen]).map fun r => (r.1, truncCols tr 0 r.2)).filter
        (fun r => r.2.any fun c => c ≠ [])).map fun r => writeRecord r.1 r.2).flatten) ∧
    (∀ row ∈ runMerge m oldRecs [frozen],
      (truncCols tr 0 row.2).all (fun c => c = []) = true →
      flushWriteRow tr row.1 row.2 = []) ∧
    (∀ bytes recs mss, parseAll bytes = some recs →
      ∃ rows, fileStoreIterate m (.ok bytes) mss = .ok rows ∧
        rows.map Prod.fst = recs.map Prod.fst ++
          (iterateMemStores m (iterateFileRecords m recs mss).2).map Prod.fst) := by
  refine ⟨foldr_flushWriteRow tr _, ?_, ?_⟩
  · intro row _ hall
    have hno : ¬ ((truncCols tr 0 row.2).any (fun c => c ≠ []) = true) := by
      simp only [List.all_eq_true, decide_eq_true_eq] at hall
      simp only [List.any_eq_true, decide_eq_true_eq]
      rintro ⟨c, hc, hne⟩
      exact hne (hall c hc)
    unfold flushWriteRow
    rw [if_neg hno]
  · intro bytes recs mss hp
    refine ⟨runMerge m recs mss, ?_, ?_⟩
    · unfold fileStoreIterate
      dsimp only
      rw [hp]
    · unfold runMerge
      rw [List.map_append, iterateFileRecords_fst_keys]

/-- Witness for C2's amended theorem: the flush writer emits nothing for a
fully-expired row, and the read side yields all file keys. -/
theorem claim2_retention_witness :
    flushWriteRow (fun _ _ => ([] : Seq)) [5] [[7]] = [] ∧
    (∃ rows, fileStoreIterate (fun _ a b => a ++ b)
        (.ok (encodeRecords [([9], [[1]])])) [] = .ok rows ∧
      rows.map Prod.fst = ([([9], [[1]])] : List Row).map Prod.fst ++
        (iterateMemStores (fun _ a b => a ++ b)
          (iterateFileRecords (fun _ a b => a ++ b) [([9], [[1]])] []).2).map Prod.fst) := by
  have h := claim2_retention (fun _ _ => ([] : Seq)) (fun _ a b => a ++ b) [([5], [[7]])] []
  have h' := claim2_retention (fun _ _ => ([] : Seq)) (fun _ a b => a ++ b) [([9], [[1]])] []
  exact ⟨h.2.1 ([5], [[7]]) (by decide) (by decide),
    h'.2.2 (encodeRecords [([9], [[1]])]) [([9], [[1]])] [] (by decide)⟩

/-- C3. Round-trip of the durable record framing: writing any finite
record list with the flush writer's framing and parsing the concatenation
with the reader yields the same records in the same order, with EOF exactly
at the boundary after the last record (`parseAll` consumes the whole
stream).  Keys are at most 65535 bytes and records at most 65535 columns as
the claim states; column lengths are below `2 ^ 64` (Go slice lengths are
non-negative `int64`, so `uint64(len(seq))` never wraps). -/
theorem claim3_framing_roundtrip (recs : List Row)
    (hk : ∀ r ∈ recs, r.1.length ≤ 65535)
    (hc : ∀ r ∈ recs, r.2.length ≤ 65535)
    (hl : ∀ r ∈ recs, ∀ c ∈ r.2, c.length < 2 ^ 64) :
    parseAll (encodeRecords recs) = some recs := by
  have h2 : (256 : Nat) ^ 2 = 65536 := by norm_num
  have h8 : (256 : Nat) ^ 8 = 2 ^ 64 := by norm_num
  refine parseAll_encodeRecords recs ?_ ?_ ?_
  · intro r hr
    have := hk r hr
    omega
  · intro r hr
    have := hc r hr
    omega
  · intro r hr c hcm
    have := hl r hr c hcm
    omega

/-- Witness for C3 at a concrete two-record list (including an empty key,
an empty column list, and an empty column). -/
theorem claim3_framing_roundtrip_witness :
    parseAll (encodeRecords [([1, 2], [[3], []]), ([], [])]) =
      some [([1, 2], [[3], []]), ([], [])] :=
  claim3_framing_roundtrip [([1, 2], [[3], []]), ([], [])]
    (by decide) (by decide) (by decide)

/-- C4 counterexample. `rowStore.iterate` collects the snapshots with
`for _, ms := range rs.memStores`, and Go map iteration order is
unspecified, so the collected slice need not be in generation-index order:
with generations 0 and 1 both holding key `[0]`, the collection order
`[1, 0]` is a permutation of the registered indices (a legal range order),
yet it merges generation 1's column as the *left* operand and produces a
different result from the index order `[0, 1]` — refuting "visited in
generation creation order". -/
theorem claim4_counterexample :
    List.Perm [1, 0]
      (([(0, [([0], [[1]])]), (1, [([0], [[2]])])] : List (Nat × MemStore)).map Prod.fst) ∧
    rowStoreIterate (fun _ a b => a ++ b) .notFound
      [(0, [([0], [[1]])]), (1, [([0], [[2]])])] [1, 0] = .ok [([0], [[2, 1]])] ∧
    rowStoreIterate (fun _ a b => a ++ b) .notFound
      [(0, [([0], [[1]])]), (1, [([0], [[2]])])] [0, 1] = .ok [([0], [[1, 2]])] ∧
    (([([0], [[2, 1]])] : List Row) ≠ [([0], [[1, 2]])]) :=
  ⟨by decide, rfl, rfl, by decide⟩

/-- C4 (amended). Within the snapshot slice handed to
`fileStore.iterate` (whatever order `rowStore.iterate`'s map range
produced), the trailing loop consumes generations left to right: every key
of the head snapshot is emitted fused with exactly its occurrences in
strictly later snapshots, the earlier snapshot's accumulated columns being
the left operand of every merge (`mergeFold`), and the later snapshots
continue with all head keys consumed. -/
theorem claim4_fuse_in_slice_order (m : Nat → Seq → Seq → Seq) (ms : MemStore)
    (rest : List MemStore) (h : (msKeys ms).Nodup) :
    iterateMemStores m (ms :: rest) =
      ms.map (fun e => (e.1, mergeFold m e.1 e.2 rest)) ++
        iterateMemStores m (rest.map fun s => eraseKeys s (msKeys ms)) := by
  rw [iterateMemStores_cons, drainStore_fst m ms rest h, drainStore_snd]

/-- Witness for C4's amended theorem at two concrete generations sharing a
key. -/
theorem claim4_fuse_in_slice_order_witness :
    iterateMemStores (fun _ a b => a ++ b) [[([0], [[1]])], [([0], [[2]])]] =
      ([([0], [[1]])] : MemStore).map
        (fun e => (e.1, mergeFold (fun _ a b => a ++ b) e.1 e.2 [[([0], [[2]])]])) ++
        iterateMemStores (fun _ a b => a ++ b)
          ([[([0], [[2]])]].map fun s => eraseKeys s (msKeys [([0], [[1]])])) :=
  claim4_fuse_in_slice_order (fun _ a b => a ++ b) [([0], [[1]])] [[([0], [[2]])]]
    (by decide)

/-- C5. One step of the file-record fusion: the snapshot's take is
removed (`msErase`/`msLookup` model `ms.remove`) and pairwise-merged into
the accumulated columns by index; for every index below
`max |file_columns| |take|`, an index beyond the take leaves the file
column unchanged, an index beyond the file columns appends `take[i]`, and
an overlapping index becomes
`merge(file_columns[i], take[i], fields[i], resolution, truncate_before)`. -/
theorem claim5_pairwise_merge {F : Type} (mg : Seq → Seq → F → Nat → Nat → Seq)
    (fields : List F) (d : F) (res tb : Nat)
    (k : Key) (cols : List Seq) (ms : MemStore) (mss : List MemStore) :
    ((mergeWithMemStores (tableMergeAt mg fields d res tb) k cols (ms :: mss)).2 =
      msErase ms k :: (mergeWithMemStores (tableMergeAt mg fields d res tb) k
        (pairwiseMergeAux (tableMergeAt mg fields d res tb) 0 cols (msLookup ms k)) mss).2) ∧
    ((mergeWithMemStores (tableMergeAt mg fields d res tb) k cols (ms :: mss)).1 =
      (mergeWithMemStores (tableMergeAt mg fields d res tb) k
        (pairwiseMergeAux (tableMergeAt mg fields d res tb) 0 cols (msLookup ms k)) mss).1) ∧
    (∀ take : List Seq,
      (pairwiseMergeAux (tableMergeAt mg fields d res tb) 0 cols take).length =
        max cols.length take.length ∧
      ∀ i, i < max cols.length take.length →
        (pairwiseMergeAux (tableMergeAt mg fields d res tb) 0 cols take).getD i [] =
          if take.length ≤ i then cols.getD i []
          else if cols.length ≤ i then take.getD i []
          else mg (cols.getD i []) (take.getD i []) (fields.getD i d) res tb) := by
  refine ⟨rfl, rfl, fun take => ⟨pairwiseMergeAux_length _ take 0 cols, fun i hi => ?_⟩⟩
  rw [pairwiseMergeAux_getD _ take 0 cols i hi]
  simp [tableMergeAt]

/-- Witness for C5 at a concrete overlap/append/keep configuration. -/
theorem claim5_pairwise_merge_witness :
    (pairwiseMergeAux (tableMergeAt (fun a b f r t => a ++ b ++ [f, r, t]) [7, 8] 0 1 2) 0
      [[1], [2]] [[5]]).getD 0 [] =
      if ([[5]] : List Seq).length ≤ 0 then ([[1], [2]] : List Seq).getD 0 []
      else if ([[1], [2]] : List Seq).length ≤ 0 then ([[5]] : List Seq).getD 0 []
      else (fun a b f r t => a ++ b ++ [f, r, t]) (([[1], [2]] : List Seq).getD 0 [])
        (([[5]] : List Seq).getD 0 []) (([7, 8] : List Nat).getD 0 0) 1 2 :=
  ((claim5_pairwise_merge (fun a b f r t => a ++ b ++ [f, r, t]) [7, 8] 0 1 2
    [9] [[1], [2]] [] []).2.2 [[5]]).2 0 (by decide)

/-- C6. Durable file names are `filestore_` followed by the creation
unix-nanosecond timestamp left-padded with zeros to 20 digits (then
`.dat`): for any two creation times `t₁ < t₂` the names compare in the
same (strict lexicographic) order — `t₂ < 10 ^ 20` always holds since
`UnixNano` is an `int64` and `2 ^ 63 < 10 ^ 20`; and at startup
`openRowStore` selects the last entry of the sorted directory listing,
which is the lexicographically greatest name. -/
theorem claim6_filename_monotonic :
    (∀ t₁ t₂ : Nat, t₁ < t₂ → t₂ < 10 ^ 20 →
      lexLt (fileStoreName t₁) (fileStoreName t₂) = true) ∧
    (∀ (files : List (List Nat)) (sel : List Nat),
      files.Pairwise (fun a b => lexLt a b = true) →
      selectExistingFile files = some sel →
      ∀ f ∈ files, f = sel ∨ lexLt f sel = true) :=
  ⟨fileStoreName_lexLt, selectExistingFile_spec⟩

/-- Witness for C6 at concrete timestamps and a concrete sorted listing. -/
theorem claim6_filename_monotonic_witness :
    lexLt (fileStoreName 0) (fileStoreName 1) = true ∧
    (fileStoreName 0 = fileStoreName 1 ∨ lexLt (fileStoreName 0) (fileStoreName 1) = true) :=
  ⟨claim6_filename_monotonic.1 0 1 (by decide) (by norm_num),
   claim6_filename_monotonic.2 [fileStoreName 0, fileStoreName 1] (fileStoreName 1)
     (by decide) rfl (fileStoreName 0) (by decide)⟩

/-- C7. Open-error handling of `fileStore.iterate`
(`if !os.IsNotExist(err) { if err != nil { return ... } ... }`): a
not-found open (including the empty initial filename, which opens to
`ENOENT`) skips the file and iterates the mem-generation snapshots only,
returning no error; any other open error is returned to the caller and, the
result being an `error`, no rows are yielded. -/
theorem claim7_open_errors (m : Nat → Seq → Seq → Seq) (mss : List MemStore) :
    fileStoreIterate m .notFound mss = .ok (iterateMemStores m mss) ∧
    ∀ c, fileStoreIterate m (.openErr c) mss = .error (.openFailed c) :=
  ⟨rfl, fun _ => rfl⟩

/-- C8. Byte accounting and flush trigger of `processInserts`: an
insert changes the counter by `len(key)` when the key is absent
(`seqs == nil`) plus the sum over fields of
`len(updated) − previousSize` (the grown vector pads with empty sequences,
which add nothing); the flush trigger runs exactly when the counter has
reached `maxMemStoreBytes`; the trigger does nothing at counter zero and
otherwise registers a fresh empty active generation under the next index,
resets the counter, and emits the frozen `(idx, snapshot)`. -/
theorem claim8_byte_accounting {F V : Type} (upd : Seq → V → F → Nat → Nat → Seq)
    (fields : List F) (res tb : Nat) (maxBytes : Int) (k : Key) (vals : V)
    (st : IngestState) :
    ((insertStep upd fields res tb k vals st).counter =
      st.counter + (if msLookup st.current k = [] then (k.length : Int) else 0) +
        (((updateSeqs upd vals res tb fields
          (growSeqs fields.length (msLookup st.current k))).map List.length).sum : Int) -
        (((msLookup st.current k).map List.length).sum : Int)) ∧
    (maxBytes ≤ (insertStep upd fields res tb k vals st).counter →
      insertEvent upd fields res tb maxBytes k vals st =
        flushTrigger (insertStep upd fields res tb k vals st)) ∧
    ((insertStep upd fields res tb k vals st).counter < maxBytes →
      insertEvent upd fields res tb maxBytes k vals st =
        (insertStep upd fields res tb k vals st, none)) ∧
    (∀ s : IngestState, s.counter = 0 → flushTrigger s = (s, none)) ∧
    (∀ s : IngestState, s.counter ≠ 0 →
      flushTrigger s = (⟨s.curIdx + 1, 0, [], s.frozen ++ [(s.curIdx, s.current)]⟩,
        some (s.curIdx, s.current))) := by
  refine ⟨?_, ?_, ?_, ?_, ?_⟩
  · show st.counter + _ + _ - _ = _
    rw [growSeqs_length_sum fields.length (msLookup st.current k)]
  · intro h
    unfold insertEvent
    rw [if_pos h]
  · intro h
    unfold insertEvent
    rw [if_neg (not_le.mpr h)]
  · intro s h
    unfold flushTrigger
    rw [if_pos h]
  · intro s h
    unfold flushTrigger
    rw [if_neg h]

/-- Witness for C8: a concrete insert on an absent key that crosses the
threshold and fires the flush trigger. -/
theorem claim8_byte_accounting_witness :
    insertEvent (fun s v _ _ _ => s ++ [v]) [0] 0 0 1 [1] 3
        ⟨0, 0, [], []⟩ =
      flushTrigger (insertStep (fun s v _ _ _ => s ++ [v]) [0] 0 0 [1] 3
        ⟨0, 0, [], []⟩) ∧
    flushTrigger ⟨0, 0, [], []⟩ = (⟨0, 0, [], []⟩, none) := by
  have h := claim8_byte_accounting (fun s v _ _ _ => s ++ [v]) [0] 0 0 1 [1] 3
    ⟨0, 0, [], []⟩
  exact ⟨h.2.1 (by decide), h.2.2.2.1 ⟨0, 0, [], []⟩ (by decide)⟩

/-- C9. Torn reads are possible, contradicting the spec's no-torn-reads
invariant: `memStore.copy` (source lines 288–294) copies only the map
entries, so a snapshot's entry holds the same `[]sequence` backing array as
the live generation, and `processInserts` mutates that array in place
(`seqs[i] = updated`, line 131) while a reader that released the read lock
(line 154) loads the columns with no synchronization.  In the model, the
reader's two loads `[r 0, r 1]` may interleave with the writer's two
in-place stores `[w 0, w 1]` as the legal schedule `[r 0, w 0, w 1, r 1]`,
whose observation `[[1], [4]]` mixes the pre-insert field 0 with the
post-insert field 1 — neither the pre- nor the post-insert vector. -/
theorem claim9_torn_read :
    isShuffle [RwEv.w 0, RwEv.w 1] [RwEv.r 0, RwEv.r 1]
      [RwEv.r 0, RwEv.w 0, RwEv.w 1, RwEv.r 1] = true ∧
    (runRace [[3], [4]] [RwEv.r 0, RwEv.w 0, RwEv.w 1, RwEv.r 1] [[1], [2]]).2 = [[1], [4]] ∧
    (runRace [[3], [4]] [RwEv.r 0, RwEv.w 0, RwEv.w 1, RwEv.r 1] [[1], [2]]).2 ≠ [[1], [2]] ∧
    (runRace [[3], [4]] [RwEv.r 0, RwEv.w 0, RwEv.w 1, RwEv.r 1] [[1], [2]]).2 ≠ [[3], [4]] := by
  refine ⟨by decide, by decide, by decide, by decide⟩

/-- C10. The flush writer encodes `uint16(len(key))` and
`uint16(len(columns))`, i.e. the lengths reduced modulo `2 ^ 16`, and never
errors (it is a total function of the row): for lengths at most 65535 the
encoded field equals the true length, while for a 65536-byte key the
emitted `key_len` wraps to 0, so the reader's framing of that record no
longer matches the written key — it parses an empty key (and then
misreads the key bytes as further framing). -/
theorem claim10_length_truncation :
    (∀ n : Nat, bytesToNatBE (natDigitsBE 256 2 n) = n % 65536) ∧
    (∀ (k : Key) (cols : List Seq), k.length ≤ 65535 → cols.length ≤ 65535 →
      bytesToNatBE (natDigitsBE 256 2 k.length) = k.length ∧
      bytesToNatBE (natDigitsBE 256 2 cols.length) = cols.length) ∧
    (bytesToNatBE (natDigitsBE 256 2 65536) = 0) ∧
    (∀ krest : List Nat, krest.length = 65534 →
      (0 :: 0 :: krest).length = 65536 ∧
      parseRecord (writeRecord (0 :: 0 :: krest) []) =
        some (([], []), krest ++ [0, 0]) ∧
      ([] : Key) ≠ 0 :: 0 :: krest) := by
  have hmod : (256 : Nat) ^ 2 = 65536 := by norm_num
  refine ⟨?_, ?_, ?_, ?_⟩
  · intro n
    rw [bytesToNatBE_natDigitsBE, hmod]
  · intro k cols hk hc
    constructor
    · rw [bytesToNatBE_natDigitsBE, hmod, Nat.mod_eq_of_lt (by omega)]
    · rw [bytesToNatBE_natDigitsBE, hmod, Nat.mod_eq_of_lt (by omega)]
  · rw [bytesToNatBE_natDigitsBE, hmod]
  · intro krest hlen
    have hklen : (0 :: 0 :: krest).length = 65536 := by
      simp [hlen]
    refine ⟨hklen, ?_, by simp⟩
    have h2 : ∀ t : List Nat, readUBE 2 (0 :: 0 :: t) = some (0, t) := by
      intro t
      show readUBE 2 ([0, 0] ++ t) = _
      unfold readUBE
      rw [readBytes_append' 2 [0, 0] t rfl]
      rfl
    have hw : writeRecord (0 :: 0 :: krest) [] =
        0 :: 0 :: ((0 :: 0 :: krest) ++ ([0, 0] : List Nat)) := by
      unfold writeRecord
      rw [hklen]
      rw [show natDigitsBE 256 2 65536 = [0, 0] from by decide,
        show natDigitsBE 256 2 (List.length ([] : List Seq)) = [0, 0] from by decide]
      rw [show (List.map (fun c : Seq => natDigitsBE 256 8 c.length) []).flatten =
        ([] : List Nat) from rfl]
      rw [show ([] : List Seq).flatten = ([] : List Nat) from rfl]
      rw [List.append_nil, List.append_nil, List.append_assoc, List.cons_append,
        List.cons_append, List.nil_append]
    rw [hw]
    unfold parseRecord
    rw [h2]
    dsimp only
    rw [show readBytes 0 ((0 :: 0 :: krest) ++ [0, 0]) =
      some ([], (0 :: 0 :: krest) ++ [0, 0]) from by
        unfold readBytes
        rw [if_pos (Nat.zero_le _), List.take_zero, List.drop_zero]]
    dsimp only
    rw [List.cons_append, List.cons_append, h2]
    dsimp only
    rfl

/-- Witness for C10: the encoded length fields of a short record equal the
true lengths. -/
theorem claim10_length_truncation_witness :
    bytesToNatBE (natDigitsBE 256 2 (List.length ([1, 2, 3] : Key))) = 3 ∧
    ((0 :: 0 :: List.replicate 65534 0).length = 65536 ∧
      parseRecord (writeRecord (0 :: 0 :: List.replicate 65534 0) []) =
        some (([], []), List.replicate 65534 0 ++ [0, 0]) ∧
      ([] : Key) ≠ 0 :: 0 :: List.replicate 65534 0) :=
  ⟨(claim10_length_truncation.2.1 [1, 2, 3] [[4]] (by decide) (by decide)).1,
   claim10_length_truncation.2.2.2 (List.replicate 65534 0) (List.length_replicate 65534 0)⟩

end Tdb
